import Mathlib

/-! Verification development for mdwc (src/main.rs): a word-count tool over plain
text, PDF and DOCX files resolved through glob patterns.  The Rust source is
shallowly embedded: text is a list of characters, the filesystem is a partial
map from paths to file data, fallible Rust functions return Except values, and
panics are modelled by Option, with none standing for a panic. -/

/-- Text and paths are lists of characters. -/
abbrev Str := List Char

/-- Models char::is_alphabetic, the split predicate at main.rs:61.  The
development only ever evaluates it on ASCII characters, on which Rust's
Unicode Alphabetic class coincides with the ASCII letters tested here. -/
def is_alphabetic (c : Char) : Bool := c.isAlpha

/-- Models str::to_lowercase at main.rs:63 (characterwise lowercasing, on the
ASCII fragment that this development ever evaluates). -/
def to_lowercase (s : Str) : Str := s.map Char.toLower

/-- Models str::split with a character predicate: the chunks (possibly empty)
between separator characters, n separator occurrences giving n+1 chunks. -/
def rust_split (p : Char → Bool) : Str → List Str
  | [] => [[]]
  | c :: cs =>
    if p c then [] :: rust_split p cs
    else
      match rust_split p cs with
      | [] => [[c]]
      | t :: ts => (c :: t) :: ts

/-- Models the token pipeline at main.rs:60-64 (and its copy at main.rs:175-179):
split on non-alphabetic characters, drop empty chunks, lowercase each token. -/
def tokenize_words (text : Str) : List Str :=
  ((rust_split (fun c => !is_alphabetic c) text).filter (fun s => !s.isEmpty)).map
    to_lowercase

/-- Modelled from the spec: the word tokens of a text are its maximal runs of
alphabetic characters (spec section 3, "a word token is a maximal run of
alphabetic characters").  This is the spec-side characterization that the
code's split-based tokenizer is compared against. -/
def spec_alpha_runs (l : Str) : List Str :=
  match l with
  | [] => []
  | c :: cs =>
    if is_alphabetic c then
      (c :: cs.takeWhile is_alphabetic) :: spec_alpha_runs (cs.dropWhile is_alphabetic)
    else
      spec_alpha_runs cs
termination_by l.length
decreasing_by
  · exact Nat.lt_succ_of_le (List.dropWhile_suffix is_alphabetic).sublist.length_le
  · simp

/-- Extraction failure kinds of the original code (each Box dyn Error source). -/
inductive ExtractError where
  | io
  | pdf
  | zipOpen
  | zipEntryMissing
  | zipEntryText
  | utf8
deriving DecidableEq, Repr

/-- Models the aspects of a file's bytes that the code inspects: the result of
fs::read_to_string (none when the bytes are not valid UTF-8), the result of
ZipArchive::new (none when the bytes are not a valid ZIP archive; otherwise the
entry list, each entry with its name and its read_to_string outcome), and the
result of pdf_extract::extract_text (none when PDF parsing fails). -/
structure FileBytes where
  asUtf8 : Option Str
  asZip : Option (List (Str × Option Str))
  asPdfText : Option Str
deriving DecidableEq

/-- A filesystem: a partial map from paths to file bytes. -/
abbrev FS := Str → Option FileBytes

/-- Models the characters after the last path separator (the final component
used by std::path file_name, for paths without trailing separators). -/
def after_last_slash (path : Str) : Str :=
  path.foldl (fun acc c => if c = '/' then [] else acc ++ [c]) []

/-- Models Path::file_name for ordinary paths: the final component, none when
it is empty or a relative marker. -/
def file_name_of (path : Str) : Option Str :=
  let name := after_last_slash path
  if name = [] ∨ name = ['.'] ∨ name = ['.', '.'] then none else some name

/-- Splits a file name at its last dot: some (stem, ext), none when the name
has no dot. -/
def split_at_last_dot : Str → Option (Str × Str)
  | [] => none
  | c :: rest =>
    match split_at_last_dot rest with
    | some (b, a) => some (c :: b, a)
    | none => if c = '.' then some ([], rest) else none

/-- Models Path::extension: the portion of the file name after its final dot;
none when there is no file name, no dot, or the name starts with its only dot. -/
def extension_of (path : Str) : Option Str :=
  match file_name_of path with
  | none => none
  | some name =>
    match split_at_last_dot name with
    | none => none
    | some ([], _) => none
    | some (_ :: _, ext) => some ext

/-- Models the regex tag scan of main.rs:52: starting from a given suffix that
follows a left angle bracket, recognize one-or-more characters other than a
right angle bracket followed by a right angle bracket, returning what follows
the match. -/
def find_tag_end : Str → Option Str
  | [] => none
  | c :: rest => if c = '>' then none else go_to_gt rest
where
  go_to_gt : Str → Option Str
    | [] => none
    | c :: rest => if c = '>' then some rest else go_to_gt rest

/-- Fuel-indexed worker for strip_xml_tags; the fuel is an upper bound on the
remaining text length, so it is never exhausted. -/
def strip_tags_aux : Nat → Str → Str
  | 0, l => l
  | _ + 1, [] => []
  | n + 1, c :: rest =>
    if c = '<' then
      match find_tag_end rest with
      | some rest2 => ' ' :: strip_tags_aux n rest2
      | none => c :: strip_tags_aux n rest
    else
      c :: strip_tags_aux n rest

/-- Models Regex::replace_all with the pattern of main.rs:52: every leftmost
match of a left angle bracket, a nonempty run of characters other than a right
angle bracket, and a right angle bracket is replaced by a single space. -/
def strip_xml_tags (l : Str) : Str := strip_tags_aux l.length l

/-- Models extract_docx_text (main.rs:44-55): open the file, open it as a ZIP
archive, find the entry named word/document.xml, read it as text, strip tags. -/
def extract_docx_text (fs : FS) (file_path : Str) : Except ExtractError Str :=
  match fs file_path with
  | none => .error .io
  | some fb =>
    match fb.asZip with
    | none => .error .zipOpen
    | some entries =>
      match entries.find? (fun e => e.1 = "word/document.xml".data) with
      | none => .error .zipEntryMissing
      | some (_, none) => .error .zipEntryText
      | some (_, some xml) => .ok (strip_xml_tags xml)

/-- Models extract_file_content (main.rs:24-40): dispatch on the extension,
with the pdf and docx branches delegating and everything else read as text. -/
def extract_file_content (fs : FS) (file_path : Str) : Except ExtractError Str :=
  if extension_of file_path = some "pdf".data then
    match fs file_path with
    | none => .error .io
    | some fb =>
      match fb.asPdfText with
      | none => .error .pdf
      | some content => .ok content
  else if extension_of file_path = some "docx".data then
    extract_docx_text fs file_path
  else
    match fs file_path with
    | none => .error .io
    | some fb =>
      match fb.asUtf8 with
      | none => .error .utf8
      | some content => .ok content

/-- Models the WordCount record of main.rs:16-20. -/
structure WordCount where
  file_path : Str
  unique_words : Nat
  total_words : Nat
deriving DecidableEq, Repr

/-- Models count_words_in_file (main.rs:58-73): extract the content, tokenize,
count the tokens and the distinct tokens (the HashSet size). -/
def count_words_in_file (fs : FS) (file_path : Str) : Except ExtractError WordCount :=
  match extract_file_content fs file_path with
  | .error e => .error e
  | .ok contents =>
    let words := tokenize_words contents
    .ok { file_path := file_path
          unique_words := words.toFinset.card
          total_words := words.length }

/-- Models name.starts_with of the Office lock-file marker (main.rs:85). -/
def is_lockfile_name : Str → Bool
  | c1 :: c2 :: _ => c1 = '~' && c2 = '$'
  | _ => false

/-- Models the aspects of a glob match (a PathBuf) that the code inspects:
whether the path is a regular file, its final component converted to a string
(none when absent or not valid UTF-8), and the whole path converted to a
string (none when the path is not valid UTF-8). -/
structure RPath where
  isFile : Bool
  fileName : Option Str
  toStr : Option Str

/-- One item yielded by the glob iterator: a matched path or a per-candidate
glob error. -/
inductive GlobEntry where
  | ok (p : RPath)
  | err

/-- The outcome of glob(pattern): a pattern-compilation failure or the list of
iterator items in order. -/
inductive GlobOutcome where
  | patternError
  | entries (es : List GlobEntry)

/-- A diagnostic event written to the error channel (the eprintln calls at
main.rs:91 and main.rs:95). -/
inductive Diag where
  | fileError (path : Str) (e : ExtractError)
  | globError
deriving DecidableEq, Repr

/-- The pattern-level failures of process_files: a malformed glob pattern
propagated by the question-mark at main.rs:79, or the no-files error built at
main.rs:100. -/
inductive PatErr where
  | patternError
  | noMatch
deriving DecidableEq, Repr

/-- Models the loop body of process_files (main.rs:79-97) over the glob items:
skip non-files, skip lock files, count each remaining file, pushing successes
and reporting failures; none models the panic of the unwrap at main.rs:89 on a
path that is not valid UTF-8. -/
def process_entries (fs : FS) : List GlobEntry → Option (List Diag × List WordCount)
  | [] => some ([], [])
  | .err :: rest =>
    (process_entries fs rest).map (fun dr => (.globError :: dr.1, dr.2))
  | .ok p :: rest =>
    if p.isFile then
      if (match p.fileName with
          | some name => is_lockfile_name name
          | none => false) then
        process_entries fs rest
      else
        match p.toStr with
        | none => none
        | some s =>
          match count_words_in_file fs s with
          | .ok count => (process_entries fs rest).map (fun dr => (dr.1, count :: dr.2))
          | .error e =>
            (process_entries fs rest).map (fun dr => (.fileError s e :: dr.1, dr.2))
    else
      process_entries fs rest

instance {ε α : Type} [DecidableEq ε] [DecidableEq α] : DecidableEq (Except ε α) :=
  fun a b =>
  match a, b with
  | .ok x, .ok y => if h : x = y then .isTrue (by rw [h]) else .isFalse (by simp [h])
  | .error x, .error y => if h : x = y then .isTrue (by rw [h]) else .isFalse (by simp [h])
  | .ok _, .error _ => .isFalse (by simp)
  | .error _, .ok _ => .isFalse (by simp)

/-- The observable outcome of process_files: its diagnostics and its returned
value. -/
structure ProcOut where
  diags : List Diag
  result : Except PatErr (List WordCount)
deriving DecidableEq

/-- Models process_files (main.rs:76-104): a malformed pattern is propagated
immediately; otherwise the entries are processed in order and an empty result
list becomes the no-files error. -/
def process_files (fs : FS) (g : GlobOutcome) : Option ProcOut :=
  match g with
  | .patternError => some { diags := [], result := .error .patternError }
  | .entries es =>
    (process_entries fs es).map fun dr =>
      { diags := dr.1
        result := if dr.2.isEmpty then .error .noMatch else .ok dr.2 }

/-- The process-wide accumulators of run (main.rs:154-156). -/
structure AggState where
  grand_total_words : Nat
  grand_unique : Finset Str
  files_processed : Nat
deriving DecidableEq

/-- Models one iteration of the per-file loop of run (main.rs:170-203): add the
file's total to the pattern total, re-extract and re-tokenize the file to grow
the pattern-level and grand unique-word sets, and count the file as processed. -/
def fold_file (fs : FS) (acc : Nat × Finset Str × AggState) (r : WordCount) :
    Nat × Finset Str × AggState :=
  let ptot := acc.1 + r.total_words
  match extract_file_content fs r.file_path with
  | .ok contents =>
    let ws := (tokenize_words contents).toFinset
    (ptot, acc.2.1 ∪ ws,
      { acc.2.2 with
        grand_unique := acc.2.2.grand_unique ∪ ws
        files_processed := acc.2.2.files_processed + 1 })
  | .error _ =>
    (ptot, acc.2.1, { acc.2.2 with files_processed := acc.2.2.files_processed + 1 })

/-- The data of one per-pattern report block (main.rs:160-216). -/
structure PatternBlock where
  file_lines : List WordCount
  pattern_total_words : Nat
  pattern_unique_words : Finset Str
deriving DecidableEq

/-- Models the pattern-success branch of run (main.rs:160-216): fold every file
of the pattern and then add the pattern total into the grand total. -/
def process_pattern (fs : FS) (st : AggState) (results : List WordCount) :
    PatternBlock × AggState :=
  let folded := results.foldl (fold_file fs) (0, ∅, st)
  ({ file_lines := results
     pattern_total_words := folded.1
     pattern_unique_words := folded.2.1 },
   { folded.2.2 with grand_total_words := folded.2.2.grand_total_words + folded.1 })

/-- The per-pattern outcome as reported by run: a report block, or the pattern
error written at main.rs:218-219. -/
inductive PatternOutcome where
  | ok (b : PatternBlock)
  | err (e : PatErr)
deriving DecidableEq

/-- The grand-total block of main.rs:224-242. -/
structure GrandBlock where
  files_processed : Nat
  total_unique : Nat
  total_words : Nat
deriving DecidableEq, Repr

/-- Models the pattern loop of run (main.rs:158-221), threading the grand
accumulators; none propagates a panic from process_files. -/
def run_patterns (fs : FS) (globs : Str → GlobOutcome) :
    List Str → AggState → Option (List PatternOutcome × AggState)
  | [], st => some ([], st)
  | p :: ps, st =>
    match process_files fs (globs p) with
    | none => none
    | some out =>
      match out.result with
      | .error e =>
        (run_patterns fs globs ps st).map (fun os => (.err e :: os.1, os.2))
      | .ok results =>
        let stepped := process_pattern fs st results
        (run_patterns fs globs ps stepped.2).map (fun os => (.ok stepped.1 :: os.1, os.2))

/-- The observable outcome of run: the two Err returns of main.rs:139 and
main.rs:151, or normal completion with the per-pattern outcomes and the
optional grand-total block. -/
inductive RunResult where
  | noArgs
  | usage
  | done (outs : List PatternOutcome) (grand : Option GrandBlock)
deriving DecidableEq

/-- Models run (main.rs:132-245): argument checks, the pattern loop, and the
grand-total block printed only when at least one file was processed. -/
def run (fs : FS) (globs : Str → GlobOutcome) (args : List Str) : Option RunResult :=
  if args.length < 1 then some .noArgs
  else if args.length < 2 then some .usage
  else
    (run_patterns fs globs (args.drop 1) ⟨0, ∅, 0⟩).map fun os =>
      .done os.1
        (if os.2.files_processed > 0 then
          some ⟨os.2.files_processed, os.2.grand_unique.card, os.2.grand_total_words⟩
        else none)

/-- Models the IEEE-754 classification of the f64 expression at main.rs:231,
namely (unique as f64 / total as f64) * 100.0 for natural-number operands: the
result is NaN exactly when the division is zero over zero (a positive unique
count over zero gives positive infinity, and any nonzero total gives a finite
value). -/
def ratio_is_nan (unique total : Nat) : Bool := unique == 0 && total == 0

/-- Projection: the grand block of a completed run, if the run completed. -/
def grand_of : Option RunResult → Option (Option GrandBlock)
  | some (.done _ g) => some g
  | _ => none

/-- Projection: the shape of each per-pattern outcome of a completed run (none
for a success, the error kind for a failure). -/
def outcome_kinds_of : Option RunResult → Option (List (Option PatErr))
  | some (.done os _) =>
    some (os.map fun o => match o with | .ok _ => none | .err e => some e)
  | _ => none

/-- The distinct lowercased tokens contributed by a file during aggregation
(main.rs:174-182): the token set of a successful re-extraction, empty when the
re-extraction fails. -/
def tokens_of (fs : FS) (path : Str) : Finset Str :=
  match extract_file_content fs path with
  | .ok contents => (tokenize_words contents).toFinset
  | .error _ => ∅

/-- Union of a list of finite sets. -/
def set_union (l : List (Finset Str)) : Finset Str := l.foldr (· ∪ ·) ∅

/-- Bytes of a plain text file: valid UTF-8, not a ZIP archive, not a PDF. -/
def text_file (s : String) : FileBytes := ⟨some s.data, none, none⟩

/-- A regular-file glob match whose path and name are the same valid string. -/
def plain_path (s : String) : RPath := ⟨true, some s.data, some s.data⟩

/-- Fixture: a filesystem with one text file e.txt whose content has no
alphabetic characters at all. -/
def fs_c1 : FS := fun p => if p = "e.txt".data then some (text_file "123 456") else none

/-- Fixture: a glob that matches exactly e.txt. -/
def globs_c1 : Str → GlobOutcome := fun _ => .entries [.ok (plain_path "e.txt")]

/-- Fixture: a file whose bytes decode as plain text, as a ZIP archive holding
a word/document.xml entry, and as a PDF, each view with different words; the
extractor's dispatch decides which view is reported. -/
def chameleon : FileBytes :=
  ⟨some "plain view".data,
   some [("word/document.xml".data, some "<w:t>docx view</w:t>".data)],
   some "pdf view".data⟩

/-- Fixture: every path holds the chameleon bytes. -/
def fs_c4 : FS := fun _ => some chameleon

/-- Fixture: a file whose bytes are not valid UTF-8 and not a ZIP or PDF. -/
def fs_bad_utf8 : FS := fun _ => some ⟨none, none, none⟩

/-- Fixture: the document.xml of a DOCX whose body text is Hello Docx World,
wrapped the way the repository's own DOCX test builds it. -/
def xml_c5 : Str :=
  "<?xml version=\"1.0\" encoding=\"UTF-8\" standalone=\"yes\"?><w:document xmlns:w=\"http://schemas.openxmlformats.org/wordprocessingml/2006/main\"><w:body><w:p><w:r><w:t>Hello Docx World</w:t></w:r></w:p></w:body></w:document>".data

/-- Fixture: a filesystem with one DOCX file holding xml_c5. -/
def fs_c5 : FS := fun p =>
  if p = "doc.docx".data then some ⟨none, some [("word/document.xml".data, some xml_c5)], none⟩
  else none

/-- Fixture: a filesystem with two text files, used for the run-level
continuation scenarios. -/
def fs_c7 : FS := fun p => if p = "g.txt".data then some (text_file "hello") else none

/-- Fixture: a glob function where the first pattern matches nothing and the
second matches g.txt. -/
def globs_c7 : Str → GlobOutcome := fun pat =>
  if pat = "none*".data then .entries [] else .entries [.ok (plain_path "g.txt")]

/-- Fixture: a glob function where the first pattern is malformed and the
second matches g.txt. -/
def globs_c6 : Str → GlobOutcome := fun pat =>
  if pat = "bad[".data then .patternError else .entries [.ok (plain_path "g.txt")]

/-- Fixture: a filesystem with one valid text file and one malformed PDF (its
bytes happen to decode as UTF-8 text but do not parse as a PDF, like the
bad.pdf of the repository's own integration test). -/
def fs_c8 : FS := fun p =>
  if p = "good.txt".data then some (text_file "hello")
  else if p = "bad.pdf".data then some (text_file "invalid pdf content")
  else none

/-- Fixture: a glob yielding the malformed PDF before the valid file. -/
def globs_c8 : Str → GlobOutcome := fun _ =>
  .entries [.ok (plain_path "bad.pdf"), .ok (plain_path "good.txt")]

/-- Fixture: two text files with no shared words. -/
def fs_c9a : FS := fun p =>
  if p = "f1.txt".data then some (text_file "hello world")
  else if p = "f2.txt".data then some (text_file "rust language")
  else none

/-- Fixture: two text files sharing the word hello. -/
def fs_c9b : FS := fun p =>
  if p = "f1.txt".data then some (text_file "hello world")
  else if p = "f2.txt".data then some (text_file "hello rust")
  else none

/-- Fixture: a glob matching f1.txt then f2.txt. -/
def globs_c9 : Str → GlobOutcome := fun _ =>
  .entries [.ok (plain_path "f1.txt"), .ok (plain_path "f2.txt")]

/-- Fixture: a filesystem with one text file whose content is the digit-split
example word2vec. -/
def fs_c2 : FS := fun p => if p = "w.txt".data then some (text_file "word2vec") else none

/-- Fixture: a regular-file glob match whose path is not valid UTF-8 (toStr is
none) while its file name converts fine. -/
def rp_no_utf8 : RPath := ⟨true, some "x.txt".data, none⟩

/-- Fixture: a glob yielding only the non-UTF-8 path. -/
def globs_c10 : Str → GlobOutcome := fun _ => .entries [.ok rp_no_utf8]


theorem spec_alpha_runs_nil : spec_alpha_runs [] = [] := by
  rw [spec_alpha_runs]

theorem rust_split_ne_nil (p : Char → Bool) (l : Str) : rust_split p l ≠ [] := by
  cases l with
  | nil => simp [rust_split]
  | cons c cs =>
    by_cases h : p c
    · simp [rust_split, h]
    · simp only [rust_split, h, if_false]
      cases rust_split p cs <;> simp

theorem rust_split_eq_chunks (p : Char → Bool) (l : Str) :
    rust_split p l = l.takeWhile (fun c => !p c) ::
      (match l.dropWhile (fun c => !p c) with
       | [] => []
       | _ :: rest => rust_split p rest) := by
  induction l with
  | nil => rfl
  | cons c cs ih =>
    by_cases h : p c
    · simp [rust_split, h, List.takeWhile_cons, List.dropWhile_cons]
    · simp only [rust_split, h, if_false, List.takeWhile_cons, List.dropWhile_cons,
        Bool.not_eq_true']
      rw [ih]
      simp [h]

theorem dropWhile_head_false (p : Char → Bool) :
    ∀ (l : Str) (d : Char) (rest : Str), l.dropWhile p = d :: rest → p d = false := by
  intro l
  induction l with
  | nil => intro d rest h; simp [List.dropWhile] at h
  | cons a as ih =>
    intro d rest h
    by_cases ha : p a
    · rw [List.dropWhile_cons_of_pos ha] at h
      exact ih d rest h
    · rw [List.dropWhile_cons_of_neg ha] at h
      cases h
      exact Bool.not_eq_true _ ▸ (by simpa using ha)

theorem filter_split_eq_runs_aux :
    ∀ (n : Nat) (l : Str), l.length ≤ n →
      (rust_split (fun c => !is_alphabetic c) l).filter (fun s => !s.isEmpty) =
        spec_alpha_runs l := by
  intro n
  induction n with
  | zero =>
    intro l hl
    have : l = [] := List.eq_nil_of_length_eq_zero (Nat.le_zero.mp hl)
    subst this
    simp [rust_split, spec_alpha_runs_nil]
  | succ n ih =>
    intro l hl
    cases l with
    | nil => simp [rust_split, spec_alpha_runs_nil]
    | cons c cs =>
      by_cases h : is_alphabetic c
      · rw [rust_split_eq_chunks, spec_alpha_runs]
        simp only [Bool.not_not, List.takeWhile_cons_of_pos h, List.dropWhile_cons_of_pos h,
          h, if_true, List.filter_cons, List.isEmpty_cons, Bool.not_false]
        refine congrArg (List.cons _) ?_
        cases hdrop : cs.dropWhile is_alphabetic with
        | nil => simp [spec_alpha_runs_nil]
        | cons d rest =>
          have hd : is_alphabetic d = false := dropWhile_head_false _ cs d rest hdrop
          have hlen : rest.length ≤ n := by
            have h1 : (d :: rest).length ≤ cs.length := by
              rw [← hdrop]
              exact (List.dropWhile_suffix is_alphabetic).sublist.length_le
            exact Nat.le_trans (Nat.le_of_succ_le h1) (Nat.le_of_succ_le_succ hl)
          rw [ih rest hlen]
          rw [spec_alpha_runs]
          simp [hd]
      · have hcs : cs.length ≤ n := Nat.le_of_succ_le_succ hl
        simp only [rust_split, h, Bool.not_false, if_true, List.filter_cons]
        rw [spec_alpha_runs]
        simp only [h, if_false]
        simpa using ih cs hcs

/-- The code's split-filter token list coincides with the spec's maximal
alphabetic runs, before lowercasing. -/
theorem filter_split_eq_runs (l : Str) :
    (rust_split (fun c => !is_alphabetic c) l).filter (fun s => !s.isEmpty) =
      spec_alpha_runs l :=
  filter_split_eq_runs_aux l.length l (Nat.le_refl _)

theorem tokenize_words_eq_runs (l : Str) :
    tokenize_words l = (spec_alpha_runs l).map to_lowercase := by
  unfold tokenize_words
  rw [filter_split_eq_runs]

/-- Distinct-element count never exceeds the list length, with equality exactly
when the list has no duplicates (main.rs:66 collects the words into a HashSet,
whose size is the number of distinct elements). -/
theorem toFinset_card_eq_length_iff (l : List Str) :
    l.toFinset.card = l.length ↔ l.Nodup := by
  constructor
  · intro h
    rw [List.card_toFinset] at h
    have hsub := l.dedup_sublist
    have heq : l.dedup = l := hsub.eq_of_length h
    rw [← heq]
    exact l.nodup_dedup
  · exact fun h => List.toFinset_card_of_nodup h

theorem count_ok_iff (fs : FS) (p : Str) (r : WordCount) :
    count_words_in_file fs p = .ok r ↔
      ∃ c, extract_file_content fs p = .ok c ∧
        r = ⟨p, (tokenize_words c).toFinset.card, (tokenize_words c).length⟩ := by
  unfold count_words_in_file
  cases h : extract_file_content fs p with
  | error e => simp
  | ok c => simp [eq_comm]

theorem count_ok_path (fs : FS) (p : Str) (r : WordCount)
    (h : count_words_in_file fs p = .ok r) : r.file_path = p := by
  obtain ⟨c, _, hr⟩ := (count_ok_iff fs p r).mp h
  rw [hr]

theorem count_ok_le (fs : FS) (p : Str) (r : WordCount)
    (h : count_words_in_file fs p = .ok r) : r.unique_words ≤ r.total_words := by
  obtain ⟨c, _, hr⟩ := (count_ok_iff fs p r).mp h
  rw [hr]
  exact List.toFinset_card_le _

theorem tokens_of_card_le (fs : FS) (r : WordCount)
    (h : count_words_in_file fs r.file_path = .ok r) :
    (tokens_of fs r.file_path).card ≤ r.total_words := by
  obtain ⟨c, hc, hr⟩ := (count_ok_iff fs r.file_path r).mp h
  unfold tokens_of
  rw [hc, hr]
  exact List.toFinset_card_le _

theorem process_entries_sound (fs : FS) :
    ∀ (es : List GlobEntry) (d : List Diag) (rs : List WordCount),
      process_entries fs es = some (d, rs) →
      ∀ r ∈ rs, count_words_in_file fs r.file_path = .ok r := by
  intro es
  induction es with
  | nil =>
    intro d rs h r hr
    simp only [process_entries, Option.some.injEq, Prod.mk.injEq] at h
    rw [← h.2] at hr
    simp at hr
  | cons e rest ih =>
    intro d rs h r hr
    cases e with
    | err =>
      simp only [process_entries, Option.map_eq_some'] at h
      obtain ⟨dr, hdr, heq⟩ := h
      have hrs : rs = dr.2 := by
        have := congrArg Prod.snd heq
        simpa using this.symm
      rw [hrs] at hr
      exact ih dr.1 dr.2 (by rw [hdr]) r hr
    | ok p =>
      simp only [process_entries] at h
      split at h
      · split at h
        · exact ih _ _ h r hr
        · split at h
          · exact absurd h (by simp)
          · rename_i s hs
            split at h
            · rename_i count hcount
              rw [Option.map_eq_some'] at h
              obtain ⟨dr, hdr, heq⟩ := h
              have hrs : rs = count :: dr.2 := by
                have := congrArg Prod.snd heq
                simpa using this.symm
              rw [hrs] at hr
              rcases List.mem_cons.mp hr with hcase | hcase
              · subst hcase
                rw [count_ok_path fs s r hcount]
                exact hcount
              · exact ih dr.1 dr.2 (by rw [hdr]) r hcase
            · rename_i e0 he0
              rw [Option.map_eq_some'] at h
              obtain ⟨dr, hdr, heq⟩ := h
              have hrs : rs = dr.2 := by
                have := congrArg Prod.snd heq
                simpa using this.symm
              rw [hrs] at hr
              exact ih dr.1 dr.2 (by rw [hdr]) r hr
      · exact ih _ _ h r hr

theorem set_union_nil : set_union [] = ∅ := rfl

theorem set_union_cons (s : Finset Str) (rest : List (Finset Str)) :
    set_union (s :: rest) = s ∪ set_union rest := rfl

theorem set_union_card_le (l : List (Finset Str)) :
    (set_union l).card ≤ (l.map Finset.card).sum := by
  induction l with
  | nil => simp [set_union_nil]
  | cons s rest ih =>
    rw [set_union_cons, List.map_cons, List.sum_cons]
    calc (s ∪ set_union rest).card
        ≤ s.card + (set_union rest).card := Finset.card_union_le _ _
      _ ≤ s.card + (rest.map Finset.card).sum := Nat.add_le_add_left ih _

theorem sum_tokens_card_le (fs : FS) (results : List WordCount)
    (h : ∀ r ∈ results, count_words_in_file fs r.file_path = .ok r) :
    ((results.map (fun r => tokens_of fs r.file_path)).map Finset.card).sum ≤
      (results.map (fun r => r.total_words)).sum := by
  induction results with
  | nil => simp
  | cons r rest ih =>
    simp only [List.map_cons, List.sum_cons]
    have h1 := tokens_of_card_le fs r (h r (by simp))
    have h2 := ih (fun x hx => h x (by simp [hx]))
    omega

theorem foldl_fold_file (fs : FS) :
    ∀ (results : List WordCount) (a : Nat) (b : Finset Str) (st : AggState),
      results.foldl (fold_file fs) (a, b, st) =
        (a + (results.map (fun r => r.total_words)).sum,
         b ∪ set_union (results.map (fun r => tokens_of fs r.file_path)),
         { grand_total_words := st.grand_total_words
           grand_unique := st.grand_unique ∪
             set_union (results.map (fun r => tokens_of fs r.file_path))
           files_processed := st.files_processed + results.length }) := by
  intro results
  induction results with
  | nil => intro a b st; simp [set_union_nil]
  | cons r rest ih =>
    intro a b st
    rw [List.foldl_cons]
    have hstep : fold_file fs (a, b, st) r =
        (a + r.total_words, b ∪ tokens_of fs r.file_path,
         { grand_total_words := st.grand_total_words
           grand_unique := st.grand_unique ∪ tokens_of fs r.file_path
           files_processed := st.files_processed + 1 }) := by
      unfold fold_file tokens_of
      cases hext : extract_file_content fs r.file_path with
      | ok contents => simp
      | error e => simp
    rw [hstep, ih]
    simp only [List.map_cons, List.sum_cons, List.length_cons, set_union_cons]
    have e1 : a + r.total_words + (rest.map (fun x => x.total_words)).sum =
        a + (r.total_words + (rest.map (fun x => x.total_words)).sum) := by omega
    have e3 : st.files_processed + 1 + rest.length =
        st.files_processed + (rest.length + 1) := by omega
    rw [Finset.union_assoc, Finset.union_assoc, e1, e3]

theorem process_pattern_eq (fs : FS) (st : AggState) (results : List WordCount) :
    process_pattern fs st results =
      ({ file_lines := results
         pattern_total_words := (results.map (fun r => r.total_words)).sum
         pattern_unique_words := set_union (results.map (fun r => tokens_of fs r.file_path)) },
       { grand_total_words :=
           st.grand_total_words + (results.map (fun r => r.total_words)).sum
         grand_unique := st.grand_unique ∪
           set_union (results.map (fun r => tokens_of fs r.file_path))
         files_processed := st.files_processed + results.length }) := by
  unfold process_pattern
  rw [foldl_fold_file]
  simp

theorem process_pattern_inv (fs : FS) (st : AggState) (results : List WordCount)
    (hsound : ∀ r ∈ results, count_words_in_file fs r.file_path = .ok r)
    (hst : st.grand_unique.card ≤ st.grand_total_words) :
    (process_pattern fs st results).1.pattern_unique_words.card ≤
        (process_pattern fs st results).1.pattern_total_words ∧
      (process_pattern fs st results).2.grand_unique.card ≤
        (process_pattern fs st results).2.grand_total_words := by
  rw [process_pattern_eq]
  have hU : (set_union (results.map (fun r => tokens_of fs r.file_path))).card ≤
      (results.map (fun r => r.total_words)).sum :=
    le_trans (set_union_card_le _) (sum_tokens_card_le fs results hsound)
  constructor
  · exact hU
  · refine le_trans (Finset.card_union_le _ _) ?_
    exact Nat.add_le_add hst hU

theorem process_files_sound (fs : FS) (g : GlobOutcome) (out : ProcOut)
    (results : List WordCount)
    (h : process_files fs g = some out) (hr : out.result = .ok results) :
    ∀ r ∈ results, count_words_in_file fs r.file_path = .ok r := by
  cases g with
  | patternError =>
    simp only [process_files, Option.some.injEq] at h
    rw [← h] at hr
    simp at hr
  | entries es =>
    simp only [process_files, Option.map_eq_some'] at h
    obtain ⟨dr, hdr, heq⟩ := h
    rw [← heq] at hr
    simp only at hr
    split at hr
    · exact absurd hr (by simp)
    · have : dr.2 = results := by
        exact Except.ok.inj hr
      rw [← this]
      exact process_entries_sound fs es dr.1 dr.2 (by rw [hdr])

theorem run_patterns_inv (fs : FS) (globs : Str → GlobOutcome) :
    ∀ (ps : List Str) (st : AggState) (os : List PatternOutcome) (stf : AggState),
      st.grand_unique.card ≤ st.grand_total_words →
      run_patterns fs globs ps st = some (os, stf) →
      stf.grand_unique.card ≤ stf.grand_total_words ∧
        ∀ b, .ok b ∈ os →
          b.pattern_unique_words.card ≤ b.pattern_total_words := by
  intro ps
  induction ps with
  | nil =>
    intro st os stf hst h
    simp only [run_patterns, Option.some.injEq, Prod.mk.injEq] at h
    obtain ⟨h1, h2⟩ := h
    rw [← h2]
    exact ⟨hst, by rw [← h1]; simp⟩
  | cons p rest ih =>
    intro st os stf hst h
    cases hpf : process_files fs (globs p) with
    | none =>
      simp only [run_patterns, hpf] at h
      exact absurd h (by simp)
    | some out =>
      cases hres : out.result with
      | error e =>
        simp only [run_patterns, hpf, hres, Option.map_eq_some'] at h
        obtain ⟨⟨os2, st2⟩, hrp, heq⟩ := h
        have hos : os = .err e :: os2 := by
          have := congrArg Prod.fst heq
          simpa using this.symm
        have hstf : stf = st2 := by
          have := congrArg Prod.snd heq
          simpa using this.symm
        obtain ⟨hinv, hblocks⟩ := ih st os2 st2 hst hrp
        refine ⟨hstf ▸ hinv, ?_⟩
        intro b hb
        rw [hos] at hb
        rcases List.mem_cons.mp hb with hcase | hcase
        · exact absurd hcase (by simp)
        · exact hblocks b hcase
      | ok results =>
        simp only [run_patterns, hpf, hres, Option.map_eq_some'] at h
        obtain ⟨⟨os2, st2⟩, hrp, heq⟩ := h
        have hos : os = .ok (process_pattern fs st results).1 :: os2 := by
          have := congrArg Prod.fst heq
          simpa using this.symm
        have hstf : stf = st2 := by
          have := congrArg Prod.snd heq
          simpa using this.symm
        have hsound := process_files_sound fs (globs p) out results hpf hres
        obtain ⟨hpat, hgrand⟩ := process_pattern_inv fs st results hsound hst
        obtain ⟨hinv, hblocks⟩ := ih (process_pattern fs st results).2 os2 st2 hgrand hrp
        refine ⟨hstf ▸ hinv, ?_⟩
        intro b hb
        rw [hos] at hb
        rcases List.mem_cons.mp hb with hcase | hcase
        · have : b = (process_pattern fs st results).1 := by
            exact (PatternOutcome.ok.inj hcase.symm).symm
          rw [this]
          exact hpat
        · exact hblocks b hcase

theorem run_patterns_all_err (fs : FS) (globs : Str → GlobOutcome) :
    ∀ (ps : List Str) (st : AggState) (os : List PatternOutcome) (stf : AggState),
      run_patterns fs globs ps st = some (os, stf) →
      (∀ o ∈ os, ∃ e, o = .err e) → stf = st := by
  intro ps
  induction ps with
  | nil =>
    intro st os stf h _
    simp only [run_patterns, Option.some.injEq, Prod.mk.injEq] at h
    exact h.2.symm
  | cons p rest ih =>
    intro st os stf h hall
    cases hpf : process_files fs (globs p) with
    | none =>
      simp only [run_patterns, hpf] at h
      exact absurd h (by simp)
    | some out =>
      cases hres : out.result with
      | error e =>
        simp only [run_patterns, hpf, hres, Option.map_eq_some'] at h
        obtain ⟨⟨os2, st2⟩, hrp, heq⟩ := h
        have hos : os = .err e :: os2 := by
          have := congrArg Prod.fst heq
          simpa using this.symm
        have hstf : stf = st2 := by
          have := congrArg Prod.snd heq
          simpa using this.symm
        rw [hstf]
        refine ih st os2 st2 hrp ?_
        intro o ho
        exact hall o (by rw [hos]; exact List.mem_cons_of_mem _ ho)
      | ok results =>
        simp only [run_patterns, hpf, hres, Option.map_eq_some'] at h
        obtain ⟨⟨os2, st2⟩, hrp, heq⟩ := h
        have hos : os = .ok (process_pattern fs st results).1 :: os2 := by
          have := congrArg Prod.fst heq
          simpa using this.symm
        obtain ⟨e, he⟩ := hall (.ok (process_pattern fs st results).1) (by rw [hos]; simp)
        exact absurd he (by simp)

theorem run_done_inv (fs : FS) (globs : Str → GlobOutcome) (args : List Str)
    (os : List PatternOutcome) (grand : Option GrandBlock)
    (h : run fs globs args = some (.done os grand)) :
    ∃ stf, run_patterns fs globs (args.drop 1) ⟨0, ∅, 0⟩ = some (os, stf) ∧
      grand = (if stf.files_processed > 0 then
        some ⟨stf.files_processed, stf.grand_unique.card, stf.grand_total_words⟩
      else none) := by
  unfold run at h
  by_cases h1 : args.length < 1
  · rw [if_pos h1] at h
    exact absurd (Option.some.inj h) (by simp)
  · rw [if_neg h1] at h
    by_cases h2 : args.length < 2
    · rw [if_pos h2] at h
      exact absurd (Option.some.inj h) (by simp)
    · rw [if_neg h2] at h
      rw [Option.map_eq_some'] at h
      obtain ⟨⟨os2, stf⟩, hrp, heq⟩ := h
      have h3 := RunResult.done.inj heq
      refine ⟨stf, ?_, h3.2.symm⟩
      rw [← h3.1]
      exact hrp

/-- C1: the claim asks that a grand-total block with a zero grand total word
count display its unique ratio as a 0.0 percent sentinel.  The code builds the
grand block whenever at least one file was processed and computes the f64
ratio unconditionally, so on a file with no alphabetic characters the block is
produced with total words zero and the displayed ratio is the NaN class of
zero over zero, not a sentinel.  This theorem evaluates the embedded run at
that failing input. -/
theorem claim_C1 :
    grand_of (run fs_c1 globs_c1 ["mdwc".data, "*.txt".data]) =
        some (some ⟨1, 0, 0⟩) ∧
      ratio_is_nan 0 0 = true := by
  exact ⟨by decide, rfl⟩

/-- C2: tokenization splits the text at every non-alphabetic character,
discards empty tokens, lowercases every retained token (the token list equals
the lowercased maximal alphabetic runs of the text), the counts are the number
of retained tokens and the number of distinct lowercased tokens, word2vec
yields the two tokens word and vec, the empty text yields zero counts, and the
token pipeline itself has no failure mode (counting succeeds whenever
extraction does). -/
theorem claim_C2 :
    (∀ text : Str, tokenize_words text = (spec_alpha_runs text).map to_lowercase) ∧
    (∀ (fs : FS) (path contents : Str),
      extract_file_content fs path = .ok contents →
      count_words_in_file fs path =
        .ok ⟨path, (tokenize_words contents).toFinset.card,
          (tokenize_words contents).length⟩) ∧
    tokenize_words "word2vec".data = ["word".data, "vec".data] ∧
    tokenize_words [] = [] ∧
    (∀ (fs : FS) (path : Str), extract_file_content fs path = .ok [] →
      count_words_in_file fs path = .ok ⟨path, 0, 0⟩) := by
  refine ⟨tokenize_words_eq_runs, ?_, by decide, rfl, ?_⟩
  · intro fs path contents h
    unfold count_words_in_file
    rw [h]
  · intro fs path h
    unfold count_words_in_file
    rw [h]
    rfl

theorem claim_C2_witness :
    count_words_in_file fs_c2 "w.txt".data =
      .ok ⟨"w.txt".data, (tokenize_words "word2vec".data).toFinset.card,
        (tokenize_words "word2vec".data).length⟩ :=
  claim_C2.2.1 fs_c2 "w.txt".data "word2vec".data (by decide)

/-- C3: for every text the distinct-token count is at most the total token
count, with equality exactly when the tokens are pairwise distinct after
lowercasing; every successfully counted file record satisfies the inequality,
and in every completed run every pattern block and the grand block satisfy it
as well. -/
theorem claim_C3 :
    (∀ text : Str,
      (tokenize_words text).toFinset.card ≤ (tokenize_words text).length ∧
        ((tokenize_words text).toFinset.card = (tokenize_words text).length ↔
          (tokenize_words text).Nodup)) ∧
    (∀ (fs : FS) (p : Str) (r : WordCount),
      count_words_in_file fs p = .ok r → r.unique_words ≤ r.total_words) ∧
    (∀ (fs : FS) (globs : Str → GlobOutcome) (args : List Str)
      (os : List PatternOutcome) (grand : Option GrandBlock),
      run fs globs args = some (.done os grand) →
      (∀ b, .ok b ∈ os → b.pattern_unique_words.card ≤ b.pattern_total_words) ∧
        (∀ g, grand = some g → g.total_unique ≤ g.total_words)) := by
  refine ⟨?_, count_ok_le, ?_⟩
  · intro text
    exact ⟨List.toFinset_card_le _, toFinset_card_eq_length_iff _⟩
  · intro fs globs args os grand h
    obtain ⟨stf, hrp, hgrand⟩ := run_done_inv fs globs args os grand h
    obtain ⟨hinv, hblocks⟩ :=
      run_patterns_inv fs globs (args.drop 1) ⟨0, ∅, 0⟩ os stf (by simp) hrp
    refine ⟨hblocks, ?_⟩
    intro g hg
    rw [hgrand] at hg
    split at hg
    · cases Option.some.inj hg
      exact hinv
    · exact absurd hg (by simp)

theorem claim_C3_witness :
    (WordCount.mk "w.txt".data 2 2).unique_words ≤
      (WordCount.mk "w.txt".data 2 2).total_words :=
  claim_C3.2.1 fs_c2 "w.txt".data ⟨"w.txt".data, 2, 2⟩ (by decide)

/-- C4: extraction dispatches on the extension with an exact, case-sensitive
match on the lowercase suffix: extension pdf goes to the PDF reader, extension
docx goes to DOCX extraction, and every other path (no extension, a different
extension, or an uppercase variant such as .PDF) is read as UTF-8 text,
failing with the UTF-8 extraction error when the bytes are not valid text.
The concrete cases use a file whose plain, PDF and DOCX readings all differ,
so they genuinely distinguish the branches. -/
theorem claim_C4 :
    (∀ (fs : FS) (path : Str), extension_of path = some "pdf".data →
      extract_file_content fs path =
        (match fs path with
         | none => .error .io
         | some fb =>
           match fb.asPdfText with
           | none => .error .pdf
           | some content => .ok content)) ∧
    (∀ (fs : FS) (path : Str), extension_of path = some "docx".data →
      extract_file_content fs path = extract_docx_text fs path) ∧
    (∀ (fs : FS) (path : Str),
      extension_of path ≠ some "pdf".data → extension_of path ≠ some "docx".data →
      extract_file_content fs path =
        (match fs path with
         | none => .error .io
         | some fb =>
           match fb.asUtf8 with
           | none => .error .utf8
           | some content => .ok content)) ∧
    extract_file_content fs_c4 "d.pdf".data = .ok "pdf view".data ∧
    extract_file_content fs_c4 "d.docx".data = .ok " docx view ".data ∧
    extract_file_content fs_c4 "d.PDF".data = .ok "plain view".data ∧
    extract_file_content fs_c4 "d".data = .ok "plain view".data ∧
    extract_file_content fs_c4 "d.txt".data = .ok "plain view".data ∧
    extract_file_content fs_bad_utf8 "d.txt".data = .error .utf8 := by
  refine ⟨?_, ?_, ?_, by decide, by decide, by decide, by decide, by decide, by decide⟩
  · intro fs path h
    unfold extract_file_content
    rw [if_pos h]
  · intro fs path h
    unfold extract_file_content
    rw [if_neg (by rw [h]; decide), if_pos h]
  · intro fs path h1 h2
    unfold extract_file_content
    rw [if_neg h1, if_neg h2]

theorem claim_C4_witness :
    extract_file_content fs_c4 "z.pdf".data = .ok "pdf view".data := by
  rw [claim_C4.1 fs_c4 "z.pdf".data (by decide)]
  decide

set_option maxRecDepth 8192 in
/-- C5: DOCX extraction opens the file as a ZIP archive, reads the entry named
exactly word/document.xml as text and replaces every tag match by one space;
a missing file, a non-ZIP file, a missing entry and a non-text entry each
surface as the corresponding extraction error; and a DOCX whose body text is
Hello Docx World counts three total and three unique words. -/
theorem claim_C5 :
    (∀ (fs : FS) (path : Str), fs path = none →
      extract_docx_text fs path = .error .io) ∧
    (∀ (fs : FS) (path : Str) (fb : FileBytes), fs path = some fb →
      fb.asZip = none → extract_docx_text fs path = .error .zipOpen) ∧
    (∀ (fs : FS) (path : Str) (fb : FileBytes) (entries : List (Str × Option Str)),
      fs path = some fb → fb.asZip = some entries →
      entries.find? (fun e => e.1 = "word/document.xml".data) = none →
      extract_docx_text fs path = .error .zipEntryMissing) ∧
    (∀ (fs : FS) (path : Str) (fb : FileBytes) (entries : List (Str × Option Str))
      (nm : Str),
      fs path = some fb → fb.asZip = some entries →
      entries.find? (fun e => e.1 = "word/document.xml".data) = some (nm, none) →
      extract_docx_text fs path = .error .zipEntryText) ∧
    (∀ (fs : FS) (path : Str) (fb : FileBytes) (entries : List (Str × Option Str))
      (nm xml : Str),
      fs path = some fb → fb.asZip = some entries →
      entries.find? (fun e => e.1 = "word/document.xml".data) = some (nm, some xml) →
      extract_docx_text fs path = .ok (strip_xml_tags xml)) ∧
    strip_xml_tags "<a>hi</a>".data = " hi ".data ∧
    count_words_in_file fs_c5 "doc.docx".data = .ok ⟨"doc.docx".data, 3, 3⟩ := by
  refine ⟨?_, ?_, ?_, ?_, ?_, by decide, by decide⟩
  · intro fs path h
    simp only [extract_docx_text, h]
  · intro fs path fb h1 h2
    simp only [extract_docx_text, h1, h2]
  · intro fs path fb entries h1 h2 h3
    simp only [extract_docx_text, h1, h2, h3]
  · intro fs path fb entries nm h1 h2 h3
    simp only [extract_docx_text, h1, h2, h3]
  · intro fs path fb entries nm xml h1 h2 h3
    simp only [extract_docx_text, h1, h2, h3]

set_option maxRecDepth 8192 in
theorem claim_C5_witness :
    extract_docx_text fs_c5 "doc.docx".data = .ok (strip_xml_tags xml_c5) :=
  claim_C5.2.2.2.2.1 fs_c5 "doc.docx".data
    ⟨none, some [("word/document.xml".data, some xml_c5)], none⟩
    [("word/document.xml".data, some xml_c5)] "word/document.xml".data xml_c5
    (by decide) rfl (by decide)

/-- C6 counterexample: on a malformed pattern the code does not log a warning
and continue; process_files propagates the pattern error immediately, with an
empty diagnostics list and the pattern-level error as its result. -/
theorem claim_C6_counterexample :
    process_files fs_c7 GlobOutcome.patternError =
      some { diags := [], result := .error .patternError } := rfl

/-- C6 amended: non-regular-file matches are skipped, files whose name begins
with the lock-file marker are skipped, and a glob-engine error for an
individual candidate is logged as a non-fatal warning with only that candidate
skipped; a malformed pattern, by contrast, fails the whole pattern immediately
with the pattern error (no warning diagnostic), though the run continues with
the remaining patterns. -/
theorem claim_C6 :
    (∀ (fs : FS) (es : List GlobEntry) (p : RPath), p.isFile = false →
      process_entries fs (.ok p :: es) = process_entries fs es) ∧
    (∀ (fs : FS) (es : List GlobEntry) (p : RPath) (n : Str),
      p.isFile = true → p.fileName = some n → is_lockfile_name n = true →
      process_entries fs (.ok p :: es) = process_entries fs es) ∧
    (∀ (fs : FS) (es : List GlobEntry),
      process_entries fs (.err :: es) =
        (process_entries fs es).map (fun dr => (.globError :: dr.1, dr.2))) ∧
    (∀ fs : FS, process_files fs .patternError =
      some { diags := [], result := .error .patternError }) ∧
    (∀ (fs : FS) (globs : Str → GlobOutcome) (pat : Str) (ps : List Str)
      (st : AggState), globs pat = .patternError →
      run_patterns fs globs (pat :: ps) st =
        (run_patterns fs globs ps st).map
          (fun os => (.err .patternError :: os.1, os.2))) := by
  refine ⟨?_, ?_, fun fs es => rfl, fun fs => rfl, ?_⟩
  · intro fs es p h
    simp only [process_entries, h]
    simp
  · intro fs es p n h1 h2 h3
    simp only [process_entries, h1, h2, h3]
    simp
  · intro fs globs pat ps st hglobs
    simp only [run_patterns, hglobs, process_files]

theorem claim_C6_witness :
    process_entries fs_c7 (.ok ⟨false, some "d".data, some "d".data⟩ :: []) =
      process_entries fs_c7 [] :=
  claim_C6.1 fs_c7 [] ⟨false, some "d".data, some "d".data⟩ rfl

/-- C7: a pattern whose entries produce zero successfully processed files
fails with the no-files error; a completed run never fails because of such a
pattern (any returned value of run with enough arguments is the done shape);
when every pattern failed, no grand block is produced; and in the concrete
two-pattern scenario the first pattern reports its no-files error while the
run continues, succeeds, and produces the grand block from the second
pattern. -/
theorem claim_C7 :
    (∀ (fs : FS) (es : List GlobEntry) (d : List Diag),
      process_entries fs es = some (d, []) →
      process_files fs (.entries es) = some { diags := d, result := .error .noMatch }) ∧
    (∀ (fs : FS) (globs : Str → GlobOutcome) (args : List Str) (r : RunResult),
      2 ≤ args.length → run fs globs args = some r →
      ∃ os grand, r = .done os grand) ∧
    (∀ (fs : FS) (globs : Str → GlobOutcome) (args : List Str)
      (os : List PatternOutcome) (grand : Option GrandBlock),
      run fs globs args = some (.done os grand) →
      (∀ o ∈ os, ∃ e, o = .err e) → grand = none) ∧
    outcome_kinds_of (run fs_c7 globs_c7 ["mdwc".data, "none*".data, "ok*".data]) =
      some [some .noMatch, none] ∧
    grand_of (run fs_c7 globs_c7 ["mdwc".data, "none*".data, "ok*".data]) =
      some (some ⟨1, 1, 1⟩) := by
  refine ⟨?_, ?_, ?_, by decide, by decide⟩
  · intro fs es d h
    simp only [process_files, h, Option.map_some']
    rfl
  · intro fs globs args r hlen h
    unfold run at h
    rw [if_neg (by omega), if_neg (by omega)] at h
    rw [Option.map_eq_some'] at h
    obtain ⟨⟨os, stf⟩, hrp, heq⟩ := h
    exact ⟨os, _, heq.symm⟩
  · intro fs globs args os grand h hall
    obtain ⟨stf, hrp, hgrand⟩ := run_done_inv fs globs args os grand h
    have hst := run_patterns_all_err fs globs (args.drop 1) ⟨0, ∅, 0⟩ os stf hrp hall
    rw [hgrand, hst]
    simp

theorem claim_C7_witness :
    process_files fs_c7 (.entries []) =
      some { diags := [], result := .error .noMatch } :=
  claim_C7.1 fs_c7 [] [] rfl

/-- C8: an extraction failure is fatal only to its own file: the failing file
contributes a diagnostic and is dropped while the remaining entries are
processed unchanged, and in the concrete scenario of one malformed PDF plus
one valid text file the pattern succeeds with only the valid record and the
malformed file's diagnostic. -/
theorem claim_C8 :
    (∀ (fs : FS) (es : List GlobEntry) (p : RPath) (s : Str) (e : ExtractError),
      p.isFile = true →
      (∀ n, p.fileName = some n → is_lockfile_name n = false) →
      p.toStr = some s →
      count_words_in_file fs s = .error e →
      process_entries fs (.ok p :: es) =
        (process_entries fs es).map (fun dr => (.fileError s e :: dr.1, dr.2))) ∧
    process_files fs_c8 (globs_c8 "*.all".data) =
      some { diags := [.fileError "bad.pdf".data .pdf]
             result := .ok [⟨"good.txt".data, 1, 1⟩] } := by
  refine ⟨?_, by decide⟩
  intro fs es p s e h1 h2 h3 h4
  have hlock : (match p.fileName with
      | some name => is_lockfile_name name
      | none => false) = false := by
    cases hf : p.fileName with
    | none => rfl
    | some n => exact h2 n hf
  simp only [process_entries, h1, hlock, h3, h4]
  simp

theorem claim_C8_witness :
    process_entries fs_c8 (.ok (plain_path "bad.pdf") :: []) =
      (process_entries fs_c8 []).map
        (fun dr => (.fileError "bad.pdf".data .pdf :: dr.1, dr.2)) :=
  claim_C8.1 fs_c8 [] (plain_path "bad.pdf") "bad.pdf".data .pdf rfl
    (fun n hn => by
      have h := Option.some.inj hn
      subst h
      decide)
    rfl (by decide)

/-- C9: re-tokenizing a file at aggregation time recovers exactly the distinct
lowercased token set of its content; folding a pattern's files makes the
pattern total the sum of the per-file totals and makes both the pattern-level
and grand unique-word sets the union of the per-file token sets; concretely,
the files hello world and rust language give grand totals of four words and
four unique words, while hello world and hello rust share hello and give
three unique words. -/
theorem claim_C9 :
    (∀ (fs : FS) (path contents : Str),
      extract_file_content fs path = .ok contents →
      tokens_of fs path = (tokenize_words contents).toFinset) ∧
    (∀ (fs : FS) (st : AggState) (results : List WordCount),
      (process_pattern fs st results).1.pattern_total_words =
          (results.map (fun r => r.total_words)).sum ∧
        (process_pattern fs st results).1.pattern_unique_words =
          set_union (results.map (fun r => tokens_of fs r.file_path)) ∧
        (process_pattern fs st results).2.grand_total_words =
          st.grand_total_words + (results.map (fun r => r.total_words)).sum ∧
        (process_pattern fs st results).2.grand_unique =
          st.grand_unique ∪
            set_union (results.map (fun r => tokens_of fs r.file_path))) ∧
    grand_of (run fs_c9a globs_c9 ["mdwc".data, "*.txt".data]) =
      some (some ⟨2, 4, 4⟩) ∧
    grand_of (run fs_c9b globs_c9 ["mdwc".data, "*.txt".data]) =
      some (some ⟨2, 3, 4⟩) := by
  refine ⟨?_, ?_, by decide, by decide⟩
  · intro fs path contents h
    unfold tokens_of
    rw [h]
  · intro fs st results
    rw [process_pattern_eq]
    exact ⟨rfl, rfl, rfl, rfl⟩

theorem claim_C9_witness :
    tokens_of fs_c9a "f1.txt".data = (tokenize_words "hello world".data).toFinset :=
  claim_C9.1 fs_c9a "f1.txt".data "hello world".data (by decide)

/-- C10: for a matched regular file, processing unwraps the string conversion
of the path, so a path that is not valid UTF-8 makes process_files and the
whole run panic (modelled as none) instead of reporting a per-file error. -/
theorem claim_C10 :
    (∀ (fs : FS) (es : List GlobEntry) (p : RPath),
      p.isFile = true →
      (∀ n, p.fileName = some n → is_lockfile_name n = false) →
      p.toStr = none →
      process_entries fs (.ok p :: es) = none) ∧
    (∀ (fs : FS) (es : List GlobEntry) (p : RPath),
      p.isFile = true →
      (∀ n, p.fileName = some n → is_lockfile_name n = false) →
      p.toStr = none →
      process_files fs (.entries (.ok p :: es)) = none) ∧
    run fs_c7 globs_c10 ["mdwc".data, "*".data] = none := by
  have base : ∀ (fs : FS) (es : List GlobEntry) (p : RPath),
      p.isFile = true →
      (∀ n, p.fileName = some n → is_lockfile_name n = false) →
      p.toStr = none →
      process_entries fs (.ok p :: es) = none := by
    intro fs es p h1 h2 h3
    have hlock : (match p.fileName with
        | some name => is_lockfile_name name
        | none => false) = false := by
      cases hf : p.fileName with
      | none => rfl
      | some n => exact h2 n hf
    simp only [process_entries, h1, hlock, h3]
    simp
  refine ⟨base, ?_, by decide⟩
  intro fs es p h1 h2 h3
  simp only [process_files, base fs es p h1 h2 h3, Option.map_none']

theorem claim_C10_witness :
    process_entries fs_c7 (.ok rp_no_utf8 :: []) = none :=
  claim_C10.1 fs_c7 [] rp_no_utf8 rfl
    (fun n hn => by
      have h := Option.some.inj hn
      subst h
      decide)
    rfl
